import Mathlib

/-!
Shallow embedding of `packages/shared-llm/src/cost-tracker.py`: a thread-safe
LLM cost tracker with per-conversation and per-agent aggregation.

Modelling conventions:
- Python `float` fields (rates, costs, durations) are modelled as `ℚ`
  (exact arithmetic); Python `int` token counts are modelled as `ℤ`.
- The tracker object is its `_records` list; methods become functions that
  take (and, for mutators, return) the record list explicitly.
- `record` returns both the new ledger and the constructed `CallRecord`.
- `timestamp` (Python `time.time()`) is passed in explicitly as `now`.
- Sorting (`sorted(...)` in Python) is modelled with `List.insertionSort`:
  on a totally ordered type the ascending reordering of a list is unique,
  so any correct sort denotes the same function.
-/

/-- The default pricing table `_DEFAULT_PRICING`: ordered
(model_prefix, cost_per_1k_prompt, cost_per_1k_completion) entries.
A Python dict preserves insertion order, so it is embedded as a list. -/
def _DEFAULT_PRICING : List (String × ℚ × ℚ) :=
  [("deepseek", 0.00015, 0.00045),
   ("meta-llama", 0.00018, 0.00018),
   ("claude-haiku", 0.001, 0.005),
   ("claude-sonnet", 0.003, 0.015),
   ("claude-opus", 0.015, 0.075),
   ("gpt-4o-mini", 0.00015, 0.0006),
   ("gpt-4o", 0.0025, 0.01)]

/-- Substring containment on character lists: Python `needle in hay`. -/
def subOf (needle : List Char) : List Char → Bool
  | [] => needle.isEmpty
  | c :: t => List.isPrefixOf needle (c :: t) || subOf needle t

/-- Python `s.lower()`, modelled per character (agrees with CPython on
ASCII identifiers, which is what model ids are). -/
def lowerChars (s : String) : List Char := s.data.map Char.toLower

/-- The match test of `_estimate_cost`: `prefix in model.lower()`. -/
def prefixMatches (model : String) (pre : String) : Bool :=
  subOf pre.data (lowerChars model)

/-- The first pricing entry whose prefix occurs in `model.lower()`
(the loop in `_estimate_cost` returns on the first match). -/
def findEntry (model : String) : Option (String × ℚ × ℚ) :=
  _DEFAULT_PRICING.find? fun e => prefixMatches model e.1

/-- Source `_estimate_cost(model, prompt_tokens, completion_tokens)`. -/
def _estimate_cost (model : String) (prompt_tokens completion_tokens : ℤ) : ℚ :=
  match findEntry model with
  | some (_, prompt_rate, completion_rate) =>
      (prompt_tokens : ℚ) / 1000 * prompt_rate
        + (completion_tokens : ℚ) / 1000 * completion_rate
  | none =>
      (prompt_tokens : ℚ) / 1000 * 0.003 + (completion_tokens : ℚ) / 1000 * 0.015

/-- Source `CallRecord`: one LLM API call. -/
structure CallRecord where
  provider : String
  model : String
  caller : String
  conversation_id : String
  prompt_tokens : ℤ
  completion_tokens : ℤ
  total_tokens : ℤ
  estimated_cost_usd : ℚ
  duration_ms : ℚ
  success : Bool
  timestamp : ℚ
deriving Repr, DecidableEq, Inhabited

/-- Source `CostSummary`: aggregated cost data (all counters default to 0). -/
structure CostSummary where
  total_calls : ℕ := 0
  successful_calls : ℕ := 0
  failed_calls : ℕ := 0
  total_prompt_tokens : ℤ := 0
  total_completion_tokens : ℤ := 0
  total_tokens : ℤ := 0
  total_cost_usd : ℚ := 0
  total_duration_ms : ℚ := 0
deriving Repr, DecidableEq, Inhabited

/-- Source `AgentObservability`: per-agent observability metrics. -/
structure AgentObservability where
  agent_name : String
  call_count : ℕ := 0
  error_count : ℕ := 0
  error_rate : ℚ := 0
  total_tokens : ℤ := 0
  total_cost_usd : ℚ := 0
  avg_latency_ms : ℚ := 0
  p50_latency_ms : ℚ := 0
  p95_latency_ms : ℚ := 0
  max_latency_ms : ℚ := 0
deriving Repr, DecidableEq, Inhabited

/-- Source `CostTracker.record(...)`: builds the record, appends it to the ledger,
and returns (new ledger, constructed record). -/
def CostTracker.record (records : List CallRecord)
    (provider model caller : String) (conversation_id : String := "")
    (prompt_tokens completion_tokens : ℤ := 0) (duration_ms : ℚ := 0)
    (success : Bool := true) (now : ℚ := 0) : List CallRecord × CallRecord :=
  let total := prompt_tokens + completion_tokens
  let cost :=
    if success then _estimate_cost model prompt_tokens completion_tokens else 0
  let r : CallRecord :=
    { provider := provider
      model := model
      caller := caller
      conversation_id := conversation_id
      prompt_tokens := prompt_tokens
      completion_tokens := completion_tokens
      total_tokens := total
      estimated_cost_usd := cost
      duration_ms := duration_ms
      success := success
      timestamp := now }
  (records ++ [r], r)

/-- One iteration of the loop body of `CostTracker._aggregate`. -/
def aggStep (summary : CostSummary) (r : CallRecord) : CostSummary :=
  { total_calls := summary.total_calls + 1
    successful_calls := summary.successful_calls + (if r.success then 1 else 0)
    failed_calls := summary.failed_calls + (if r.success then 0 else 1)
    total_prompt_tokens := summary.total_prompt_tokens + r.prompt_tokens
    total_completion_tokens := summary.total_completion_tokens + r.completion_tokens
    total_tokens := summary.total_tokens + r.total_tokens
    total_cost_usd := summary.total_cost_usd + r.estimated_cost_usd
    total_duration_ms := summary.total_duration_ms + r.duration_ms }

/-- Source `CostTracker._aggregate(records)`. -/
def CostTracker._aggregate (records : List CallRecord) : CostSummary :=
  records.foldl aggStep {}

/-- Source `CostTracker.conversation_summary(conversation_id)`. -/
def CostTracker.conversation_summary (records : List CallRecord)
    (conversation_id : String) : CostSummary :=
  CostTracker._aggregate (records.filter fun r => r.conversation_id == conversation_id)

/-- Source `CostTracker.session_summary()`. -/
def CostTracker.session_summary (records : List CallRecord) : CostSummary :=
  CostTracker._aggregate records

/-- Source `CostTracker.provider_summary(provider)`. -/
def CostTracker.provider_summary (records : List CallRecord)
    (provider : String) : CostSummary :=
  CostTracker._aggregate (records.filter fun r => r.provider == provider)

/-- Source `CostTracker.caller_summary(caller)`. -/
def CostTracker.caller_summary (records : List CallRecord)
    (caller : String) : CostSummary :=
  CostTracker._aggregate (records.filter fun r => r.caller == caller)

/-- Source `_percentile(sorted_values, pct)`: nearest-rank percentile from
pre-sorted values; `int(...)` on a non-negative quotient is floor division. -/
def _percentile (sorted_values : List ℚ) (pct : ℕ) : ℚ :=
  if sorted_values.isEmpty then 0
  else
    let k := max 0 (min (sorted_values.length - 1) (sorted_values.length * pct / 100))
    sorted_values.getD k 0

/-- Python `max(l)` over a non-empty list (left fold of binary max). -/
def listMax : List ℚ → ℚ
  | [] => 0
  | h :: t => t.foldl max h

/-- Python `sorted(l)` ascending. -/
def sortAsc (l : List ℚ) : List ℚ := List.insertionSort (fun a b => a ≤ b) l

/-- Source `CostTracker.agent_observability(agent_name)`. -/
def CostTracker.agent_observability (records : List CallRecord)
    (agent_name : String) : AgentObservability :=
  let recs := records.filter fun r => r.caller == agent_name
  if recs.isEmpty then { agent_name := agent_name }
  else
    let durations := sortAsc (recs.map fun r => r.duration_ms)
    let success_count := recs.countP fun r => r.success
    let error_count := recs.length - success_count
    { agent_name := agent_name
      call_count := recs.length
      error_count := error_count
      error_rate := (error_count : ℚ) / (recs.length : ℚ)
      total_tokens := (recs.map fun r => r.total_tokens).sum
      total_cost_usd := (recs.map fun r => r.estimated_cost_usd).sum
      avg_latency_ms := durations.sum / (durations.length : ℚ)
      p50_latency_ms := _percentile durations 50
      p95_latency_ms := _percentile durations 95
      max_latency_ms := if durations.isEmpty then 0 else listMax durations }

/-- Source `CostTracker.reset()`: clears all records. -/
def CostTracker.reset (_records : List CallRecord) : List CallRecord := []

/-- The nearest-rank index formula as the spec states it:
`index = clamp(floor(N * P / 100), 0, N-1)`, result = value at that index
(on `ℕ` the lower clamp is inherent). Stated separately from `_percentile`
so the code's computation can be compared against the spec's formula. -/
def nearestRank (l : List ℚ) (p : ℕ) : ℚ :=
  l.getD (min (l.length - 1) (l.length * p / 100)) 0

/-- Field-wise addition of summaries (used to state that `session_summary`
decomposes as the sum of the per-caller summaries). -/
def addSummary (a b : CostSummary) : CostSummary :=
  { total_calls := a.total_calls + b.total_calls
    successful_calls := a.successful_calls + b.successful_calls
    failed_calls := a.failed_calls + b.failed_calls
    total_prompt_tokens := a.total_prompt_tokens + b.total_prompt_tokens
    total_completion_tokens := a.total_completion_tokens + b.total_completion_tokens
    total_tokens := a.total_tokens + b.total_tokens
    total_cost_usd := a.total_cost_usd + b.total_cost_usd
    total_duration_ms := a.total_duration_ms + b.total_duration_ms }

/-- Field-wise sum of a list of summaries. -/
def sumSummaries (l : List CostSummary) : CostSummary := l.foldr addSummary {}

/-- The ledger states reachable through the tracker's lifecycle: empty at
construction, grown only by `record`, cleared only by `reset`. -/
inductive Reachable : List CallRecord → Prop
  | init : Reachable []
  | step (s : List CallRecord) (provider model caller conversation_id : String)
      (prompt_tokens completion_tokens : ℤ) (duration_ms : ℚ)
      (success : Bool) (now : ℚ) : Reachable s →
      Reachable (CostTracker.record s provider model caller conversation_id
        prompt_tokens completion_tokens duration_ms success now).1
  | clear (s : List CallRecord) : Reachable s → Reachable (CostTracker.reset s)

/-- The keyword arguments of one `record` call. -/
structure RecordArgs where
  provider : String
  model : String
  caller : String
  conversation_id : String
  prompt_tokens : ℤ
  completion_tokens : ℤ
  duration_ms : ℚ
  success : Bool
  now : ℚ
deriving Repr, DecidableEq, Inhabited

/-- The `CallRecord` a `record` call constructs (it does not depend on the
ledger the record is appended to). -/
def mkRecord (a : RecordArgs) : CallRecord :=
  (CostTracker.record [] a.provider a.model a.caller a.conversation_id
    a.prompt_tokens a.completion_tokens a.duration_ms a.success a.now).2

/-- The ledger after one `record` call. -/
def applyRecord (s : List CallRecord) (a : RecordArgs) : List CallRecord :=
  (CostTracker.record s a.provider a.model a.caller a.conversation_id
    a.prompt_tokens a.completion_tokens a.duration_ms a.success a.now).1

/-- Concurrency model for the lock-protected ledger: each `record` call's
mutation of `_records` is a single append performed while holding the lock,
so any concurrent execution of N threads (thread `t`'s `i`-th call using
arguments `r t i`) is serialized by lock-acquisition order into a schedule
`σ : List (Fin N)`; `runSched` replays the appends in that order, tracking
each thread's program counter `c`. -/
def runSched {N : ℕ} (r : Fin N → ℕ → RecordArgs) :
    List (Fin N) → (Fin N → ℕ) → List CallRecord → List CallRecord
  | [], _, s => s
  | t :: σ, c, s =>
      runSched r σ (Function.update c t (c t + 1)) (applyRecord s (r t (c t)))

/-- The records a schedule produces, in schedule order (head = first append). -/
def buildList {N : ℕ} (r : Fin N → ℕ → RecordArgs) :
    List (Fin N) → (Fin N → ℕ) → List CallRecord
  | [], _ => []
  | t :: σ, c => mkRecord (r t (c t)) :: buildList r σ (Function.update c t (c t + 1))

/-- Heap of `CallRecord` objects, for the reference-level semantics of
`record`: a Python `CallRecord` is a heap object, `_records.append(record)`
stores a reference to it, and `return record` returns that same reference
(the class is a plain `@dataclass`, not `@dataclass(frozen=True)`, so its
fields are assignable through any reference). Addresses are indices into
`cells`. -/
structure RecordHeap where
  cells : List CallRecord
deriving Repr, DecidableEq, Inhabited

/-- Allocate a new record object, returning its address. -/
def RecordHeap.alloc (h : RecordHeap) (r : CallRecord) : RecordHeap × ℕ :=
  (⟨h.cells ++ [r]⟩, h.cells.length)

/-- Field assignment `obj.prompt_tokens = v` through a reference. -/
def RecordHeap.setPromptTokens (h : RecordHeap) (a : ℕ) (v : ℤ) : RecordHeap :=
  ⟨h.cells.set a { h.cells.getD a default with prompt_tokens := v }⟩

/-- `CostTracker.record` at the reference level: construct the record object,
append its address to `_records`, and return the same address. -/
def CostTracker.recordRef (h : RecordHeap) (records : List ℕ)
    (provider model caller : String) (conversation_id : String)
    (prompt_tokens completion_tokens : ℤ) (duration_ms : ℚ)
    (success : Bool) (now : ℚ) : RecordHeap × List ℕ × ℕ :=
  let r := (CostTracker.record [] provider model caller conversation_id
    prompt_tokens completion_tokens duration_ms success now).2
  let ha := h.alloc r
  (ha.1, records ++ [ha.2], ha.2)

/-- The `CallRecord` values the tracker's `_records` list refers to. -/
def ledgerRecords (h : RecordHeap) (records : List ℕ) : List CallRecord :=
  records.map fun a => h.cells.getD a default

/-- A sample ledger holding one successful call (used to instantiate
hypotheses of the theorems below at concrete inputs). -/
def sampleLedger : List CallRecord :=
  (CostTracker.record [] "together" "deepseek-ai/DeepSeek-V3.1" "jd_agent"
    "conv-1" 500 200 1200 true 0).1

/-- The single record of `sampleLedger`. -/
def sampleRecord : CallRecord :=
  (CostTracker.record [] "together" "deepseek-ai/DeepSeek-V3.1" "jd_agent"
    "conv-1" 500 200 1200 true 0).2

/-- Concrete per-thread call arguments (2 threads). -/
def sampleArgs : Fin 2 → ℕ → RecordArgs := fun t i =>
  { provider := "together"
    model := "deepseek-ai/DeepSeek-V3.1"
    caller := if t = 0 then "jd_agent" else "judge"
    conversation_id := ""
    prompt_tokens := (i : ℤ)
    completion_tokens := 1
    duration_ms := 10
    success := true
    now := 0 }

/-- The records thread `t` contributes: its calls from program counter `c t`
on, one per remaining occurrence of `t` in the schedule. -/
def threadSlice {N : ℕ} (r : Fin N → ℕ → RecordArgs) (c : Fin N → ℕ)
    (n : Fin N → ℕ) (t : Fin N) : List CallRecord :=
  (List.range' (c t) (n t)).map fun i => mkRecord (r t i)

/-- One `record` call on an empty tracker through the reference-level
semantics, binding (heap, tracker records, returned address). -/
def mutationScenario : RecordHeap × List ℕ × ℕ :=
  CostTracker.recordRef ⟨[]⟩ [] "together" "deepseek-ai/DeepSeek-V3.1"
    "jd_agent" "conv-1" 500 200 1200 true 0

/-- The heap after the caller mutates the returned record's `prompt_tokens`
field to 999. -/
def mutatedHeap : RecordHeap :=
  RecordHeap.setPromptTokens mutationScenario.1 mutationScenario.2.2 999

lemma filter_eq_nil_of_countP_zero {p : CallRecord → Bool} {s : List CallRecord}
    (h : s.countP p = 0) : s.filter p = [] := by
  rw [List.countP_eq_length_filter] at h
  exact List.length_eq_zero.mp h

/-- C3: for every non-empty ascending list of N duration values and target
percentile P, `_percentile` computes the nearest-rank value: index =
clamp(floor(N*P/100), 0, N-1), result = value at that index; and on
[10, 20, 30, 40, 50] the p50 is exactly 30 and the p95 exactly 50. -/
theorem percentile_nearest_rank :
    (∀ (l : List ℚ) (p : ℕ), l ≠ [] → l.Sorted (fun a b => a ≤ b) →
        _percentile l p = nearestRank l p)
    ∧ _percentile [10, 20, 30, 40, 50] 50 = 30
    ∧ _percentile [10, 20, 30, 40, 50] 95 = 50 := by
  refine ⟨?_, by decide, by decide⟩
  intro l p hl _
  have he : l.isEmpty = false := by simp [List.isEmpty_iff, hl]
  simp [_percentile, nearestRank, he]

theorem percentile_nearest_rank_witness :
    ([10, 20, 30, 40, 50] : List ℚ) ≠ []
    ∧ List.Sorted (fun a b => a ≤ b) ([10, 20, 30, 40, 50] : List ℚ)
    ∧ _percentile [10, 20, 30, 40, 50] 95 = nearestRank [10, 20, 30, 40, 50] 95 :=
  ⟨by decide, by decide, percentile_nearest_rank.1 _ 95 (by decide) (by decide)⟩

/-- C5: the record stored by `record` is the one returned, and its
`estimated_cost_usd` is the Pricing Resolver's estimate when `success` is
true and exactly 0 when `success` is false. -/
theorem record_cost_and_stored (records : List CallRecord)
    (provider model caller conversation_id : String)
    (prompt_tokens completion_tokens : ℤ) (duration_ms : ℚ)
    (success : Bool) (now : ℚ) :
    (CostTracker.record records provider model caller conversation_id
        prompt_tokens completion_tokens duration_ms success now).1
      = records ++ [(CostTracker.record records provider model caller
          conversation_id prompt_tokens completion_tokens duration_ms
          success now).2]
    ∧ (CostTracker.record records provider model caller conversation_id
        prompt_tokens completion_tokens duration_ms success now).2.estimated_cost_usd
      = (if success then _estimate_cost model prompt_tokens completion_tokens
         else 0) :=
  ⟨rfl, rfl⟩

/-- C7: every query on a dimension with zero matching records returns a
well-defined all-zero result: the summary methods return the all-zero
summary, `agent_observability` returns a snapshot with only the agent name
populated, and `reset` followed by `session_summary` is all-zero. -/
theorem empty_queries_zero :
    (∀ (s : List CallRecord) (cid : String),
        s.countP (fun r => r.conversation_id == cid) = 0 →
        CostTracker.conversation_summary s cid = ⟨0, 0, 0, 0, 0, 0, 0, 0⟩)
    ∧ (∀ (s : List CallRecord) (p : String),
        s.countP (fun r => r.provider == p) = 0 →
        CostTracker.provider_summary s p = ⟨0, 0, 0, 0, 0, 0, 0, 0⟩)
    ∧ (∀ (s : List CallRecord) (c : String),
        s.countP (fun r => r.caller == c) = 0 →
        CostTracker.caller_summary s c = ⟨0, 0, 0, 0, 0, 0, 0, 0⟩)
    ∧ (∀ (s : List CallRecord) (a : String),
        s.countP (fun r => r.caller == a) = 0 →
        CostTracker.agent_observability s a = ⟨a, 0, 0, 0, 0, 0, 0, 0, 0, 0⟩)
    ∧ (∀ s : List CallRecord,
        CostTracker.session_summary (CostTracker.reset s) = ⟨0, 0, 0, 0, 0, 0, 0, 0⟩) := by
  refine ⟨?_, ?_, ?_, ?_, fun s => rfl⟩
  · intro s cid h
    unfold CostTracker.conversation_summary
    rw [filter_eq_nil_of_countP_zero h]; rfl
  · intro s p h
    unfold CostTracker.provider_summary
    rw [filter_eq_nil_of_countP_zero h]; rfl
  · intro s c h
    unfold CostTracker.caller_summary
    rw [filter_eq_nil_of_countP_zero h]; rfl
  · intro s a h
    unfold CostTracker.agent_observability
    rw [filter_eq_nil_of_countP_zero h]; rfl

theorem empty_queries_zero_witness :
    sampleLedger.countP (fun r => r.caller == "nonexistent") = 0
    ∧ CostTracker.agent_observability sampleLedger "nonexistent"
        = ⟨"nonexistent", 0, 0, 0, 0, 0, 0, 0, 0, 0⟩ :=
  ⟨by decide, empty_queries_zero.2.2.2.1 sampleLedger "nonexistent" (by decide)⟩

/-- C6: in every reachable ledger state, every record satisfies
`total_tokens = prompt_tokens + completion_tokens`. -/
theorem total_tokens_invariant (s : List CallRecord) (hs : Reachable s) :
    ∀ r ∈ s, r.total_tokens = r.prompt_tokens + r.completion_tokens := by
  induction hs with
  | init => intro r hr; cases hr
  | step s provider model caller conversation_id pt ct d suc now _ ih =>
      intro r hr
      rcases List.mem_append.mp hr with h | h
      · exact ih r h
      · rw [List.mem_singleton.mp h]
  | clear s _ _ => intro r hr; cases hr

theorem total_tokens_invariant_witness :
    sampleRecord.total_tokens = sampleRecord.prompt_tokens + sampleRecord.completion_tokens :=
  total_tokens_invariant sampleLedger
    (Reachable.step [] "together" "deepseek-ai/DeepSeek-V3.1" "jd_agent"
      "conv-1" 500 200 1200 true 0 Reachable.init)
    sampleRecord (List.mem_singleton_self sampleRecord)

lemma find?_append_cons {α : Type} (p : α → Bool) (l₁ : List α) (e : α)
    (l₂ : List α) (h₁ : ∀ x ∈ l₁, p x = false) (he : p e = true) :
    List.find? p (l₁ ++ e :: l₂) = some e := by
  induction l₁ with
  | nil => simp [List.find?_cons, he]
  | cons a t ih =>
      have ha : p a = false := h₁ a (List.mem_cons_self a t)
      rw [List.cons_append, List.find?_cons, ha]
      exact ih fun x hx => h₁ x (List.mem_cons_of_mem a hx)

/-- C4: `_estimate_cost` matches prefixes case-insensitively (it depends only
on the lowercased model id), in table order with first match winning, returns
exactly `(pt/1000)*promptRate + (ct/1000)*completionRate` for the matched
entry, and is non-negative for non-negative token counts. -/
theorem estimate_cost_spec :
    (∀ (m₁ m₂ : String) (pt ct : ℤ), lowerChars m₁ = lowerChars m₂ →
        _estimate_cost m₁ pt ct = _estimate_cost m₂ pt ct)
    ∧ (∀ (model : String) (pt ct : ℤ) (e : String × ℚ × ℚ),
        findEntry model = some e →
        e ∈ _DEFAULT_PRICING ∧ prefixMatches model e.1 = true
          ∧ _estimate_cost model pt ct
              = (pt : ℚ) / 1000 * e.2.1 + (ct : ℚ) / 1000 * e.2.2)
    ∧ (∀ (model : String) (l₁ : List (String × ℚ × ℚ)) (e : String × ℚ × ℚ)
          (l₂ : List (String × ℚ × ℚ)),
        _DEFAULT_PRICING = l₁ ++ e :: l₂ → prefixMatches model e.1 = true →
        (∀ e2 ∈ l₁, prefixMatches model e2.1 = false) →
        findEntry model = some e)
    ∧ (∀ (model : String) (pt ct : ℤ), 0 ≤ pt → 0 ≤ ct →
        0 ≤ _estimate_cost model pt ct) := by
  refine ⟨?_, ?_, ?_, ?_⟩
  · intro m₁ m₂ pt ct h
    unfold _estimate_cost findEntry prefixMatches
    rw [h]
  · intro model pt ct e hf
    unfold findEntry at hf
    have hp := List.find?_some hf
    refine ⟨List.mem_of_find?_eq_some hf, hp, ?_⟩
    obtain ⟨nm, pr, cr⟩ := e
    rw [_estimate_cost]
    unfold findEntry
    rw [hf]
  · intro model l₁ e l₂ htab hme hothers
    unfold findEntry
    rw [htab]
    exact find?_append_cons _ _ _ _ (fun x hx => hothers x hx) hme
  · intro model pt ct hpt hct
    have h1 : (0 : ℚ) ≤ (pt : ℚ) / 1000 :=
      div_nonneg (by exact_mod_cast hpt) (by norm_num)
    have h2 : (0 : ℚ) ≤ (ct : ℚ) / 1000 :=
      div_nonneg (by exact_mod_cast hct) (by norm_num)
    rcases hf : findEntry model with _ | ⟨nm, pr, cr⟩
    · have hc : _estimate_cost model pt ct
          = (pt : ℚ) / 1000 * 0.003 + (ct : ℚ) / 1000 * 0.015 := by
        rw [_estimate_cost, hf]
      rw [hc]
      have := mul_le_mul_of_nonneg_left (by norm_num : (0:ℚ) ≤ 0.003) h1
      exact add_nonneg (mul_nonneg h1 (by norm_num)) (mul_nonneg h2 (by norm_num))
    · have hmem : (nm, pr, cr) ∈ _DEFAULT_PRICING := by
        unfold findEntry at hf
        exact List.mem_of_find?_eq_some hf
      have hc : _estimate_cost model pt ct
          = (pt : ℚ) / 1000 * pr + (ct : ℚ) / 1000 * cr := by
        rw [_estimate_cost, hf]
      rw [hc]
      have hr : 0 ≤ pr ∧ 0 ≤ cr := by
        fin_cases hmem <;> constructor <;> norm_num
      exact add_nonneg (mul_nonneg h1 hr.1) (mul_nonneg h2 hr.2)

theorem estimate_cost_spec_witness :
    findEntry "GPT-4o" = some ("gpt-4o", 0.0025, 0.01)
    ∧ _estimate_cost "GPT-4o" 1000 2000
        = (1000 : ℚ) / 1000 * 0.0025 + (2000 : ℚ) / 1000 * 0.01
    ∧ (0 : ℚ) ≤ _estimate_cost "GPT-4o" 1000 2000 :=
  ⟨rfl,
    (estimate_cost_spec.2.1 "GPT-4o" 1000 2000 ("gpt-4o", 0.0025, 0.01) rfl).2.2,
    estimate_cost_spec.2.2.2 "GPT-4o" 1000 2000 (by norm_num) (by norm_num)⟩

/-- C1, counterexample: "mystery-model" matches no prefix, yet the fallback
cost for 1000 prompt tokens is strictly below what the tabled `claude-opus`
entry would have produced for the same token counts, so the fallback rate is
not higher than every tabled rate and unknown models can be under-billed
relative to the table. -/
theorem fallback_under_bills_claude_opus :
    findEntry "mystery-model" = none
    ∧ ("claude-opus", (0.015 : ℚ), (0.075 : ℚ)) ∈ _DEFAULT_PRICING
    ∧ _estimate_cost "mystery-model" 1000 0
        < (1000 : ℚ) / 1000 * 0.015 + (0 : ℚ) / 1000 * 0.075 := by
  refine ⟨rfl, by norm_num [_DEFAULT_PRICING], ?_⟩
  have hc : _estimate_cost "mystery-model" 1000 0
      = ((1000 : ℤ) : ℚ) / 1000 * 0.003 + ((0 : ℤ) : ℚ) / 1000 * 0.015 := by
    have hf : findEntry "mystery-model" = none := rfl
    rw [_estimate_cost, hf]
  rw [hc]
  norm_num

/-- C1, amended: for a model matching no prefix and non-negative token
counts, the fallback cost is at least the cost any tabled entry other than
`claude-opus` would have produced (the fallback rate pair (0.003, 0.015)
bounds every tabled rate pair except the `claude-opus` one). -/
theorem fallback_dominates_non_opus (model : String) (pt ct : ℤ)
    (hf : findEntry model = none) (hpt : 0 ≤ pt) (hct : 0 ≤ ct) :
    ∀ e ∈ _DEFAULT_PRICING, e.1 ≠ "claude-opus" →
      (pt : ℚ) / 1000 * e.2.1 + (ct : ℚ) / 1000 * e.2.2
        ≤ _estimate_cost model pt ct := by
  intro e he hne
  have hc : _estimate_cost model pt ct
      = (pt : ℚ) / 1000 * 0.003 + (ct : ℚ) / 1000 * 0.015 := by
    rw [_estimate_cost, hf]
  rw [hc]
  have h1 : (0 : ℚ) ≤ (pt : ℚ) / 1000 :=
    div_nonneg (by exact_mod_cast hpt) (by norm_num)
  have h2 : (0 : ℚ) ≤ (ct : ℚ) / 1000 :=
    div_nonneg (by exact_mod_cast hct) (by norm_num)
  fin_cases he <;>
    first
      | exact absurd rfl hne
      | exact add_le_add (mul_le_mul_of_nonneg_left (by norm_num) h1)
          (mul_le_mul_of_nonneg_left (by norm_num) h2)

theorem fallback_dominates_non_opus_witness :
    findEntry "mystery-model" = none ∧ (0 : ℤ) ≤ 1000
    ∧ ("deepseek", (0.00015 : ℚ), (0.00045 : ℚ)) ∈ _DEFAULT_PRICING
    ∧ (1000 : ℚ) / 1000 * 0.00015 + (0 : ℚ) / 1000 * 0.00045
        ≤ _estimate_cost "mystery-model" 1000 0 :=
  ⟨rfl, by norm_num, by norm_num [_DEFAULT_PRICING],
    fallback_dominates_non_opus "mystery-model" 1000 0 rfl (by norm_num)
      (by norm_num) ("deepseek", 0.00015, 0.00045)
      (by norm_num [_DEFAULT_PRICING]) (by decide)⟩

lemma le_foldl_max (t : List ℚ) : ∀ a : ℚ, a ≤ t.foldl max a := by
  induction t with
  | nil => intro a; exact le_refl a
  | cons b t ih => intro a; exact le_trans (le_max_left a b) (ih (max a b))

lemma mem_le_foldl_max (t : List ℚ) : ∀ (a x : ℚ), x ∈ t → x ≤ t.foldl max a := by
  induction t with
  | nil => intro a x hx; cases hx
  | cons b t ih =>
      intro a x hx
      rcases List.mem_cons.mp hx with rfl | hx
      · exact le_trans (le_max_right a x) (le_foldl_max t (max a x))
      · exact ih (max a b) x hx

lemma le_listMax {l : List ℚ} {x : ℚ} (hx : x ∈ l) : x ≤ listMax l := by
  cases l with
  | nil => cases hx
  | cons h t =>
      rcases List.mem_cons.mp hx with rfl | hx
      · exact le_foldl_max t x
      · exact mem_le_foldl_max t h x hx

lemma getD_mono_of_sorted {l : List ℚ} (hs : l.Sorted (fun a b => a ≤ b))
    {i j : ℕ} (hij : i ≤ j) (hj : j < l.length) : l.getD i 0 ≤ l.getD j 0 := by
  have hi : i < l.length := lt_of_le_of_lt hij hj
  rw [List.getD_eq_get l 0 hi, List.getD_eq_get l 0 hj]
  exact hs.rel_get_of_le (show (⟨i, hi⟩ : Fin l.length) ≤ ⟨j, hj⟩ from hij)

lemma getD_mem_of_lt {l : List ℚ} {k : ℕ} (hk : k < l.length) :
    l.getD k 0 ∈ l := by
  rw [List.getD_eq_get l 0 hk]
  exact List.get_mem l k hk

lemma percentile_le_percentile {l : List ℚ} (hl : l ≠ [])
    (hs : l.Sorted (fun a b => a ≤ b)) {p q : ℕ} (hpq : p ≤ q) :
    _percentile l p ≤ _percentile l q := by
  have he : l.isEmpty = false := by simp [List.isEmpty_iff, hl]
  have hlen : 0 < l.length := List.length_pos.mpr hl
  simp only [_percentile, he, Bool.false_eq_true, if_false, Nat.zero_max]
  apply getD_mono_of_sorted hs
  · exact min_le_min (le_refl _) (Nat.div_le_div_right (Nat.mul_le_mul_left _ hpq))
  · exact lt_of_le_of_lt (min_le_left _ _) (Nat.sub_lt hlen one_pos)

lemma percentile_le_listMax {l : List ℚ} (hl : l ≠ []) (q : ℕ) :
    _percentile l q ≤ listMax l := by
  have he : l.isEmpty = false := by simp [List.isEmpty_iff, hl]
  have hlen : 0 < l.length := List.length_pos.mpr hl
  simp only [_percentile, he, Bool.false_eq_true, if_false, Nat.zero_max]
  exact le_listMax
    (getD_mem_of_lt (lt_of_le_of_lt (min_le_left _ _) (Nat.sub_lt hlen one_pos)))

/-- C8: for every agent with at least one recorded call, the observability
snapshot satisfies p50 latency ≤ p95 latency ≤ max latency. -/
theorem observability_percentile_monotone (s : List CallRecord)
    (agent_name : String)
    (h : (s.filter fun r => r.caller == agent_name) ≠ []) :
    (CostTracker.agent_observability s agent_name).p50_latency_ms
      ≤ (CostTracker.agent_observability s agent_name).p95_latency_ms
    ∧ (CostTracker.agent_observability s agent_name).p95_latency_ms
      ≤ (CostTracker.agent_observability s agent_name).max_latency_ms := by
  set recs := s.filter fun r => r.caller == agent_name with hrecs
  have hre : recs.isEmpty = false := by simp [List.isEmpty_iff, h]
  have hdne : sortAsc (recs.map fun r => r.duration_ms) ≠ [] := by
    intro hc
    apply h
    have hperm := List.perm_insertionSort (fun a b : ℚ => a ≤ b)
      (recs.map fun r => r.duration_ms)
    rw [sortAsc] at hc
    rw [hc] at hperm
    exact List.map_eq_nil_iff.mp hperm.symm.eq_nil
  have hsorted : (sortAsc (recs.map fun r => r.duration_ms)).Sorted
      (fun a b : ℚ => a ≤ b) := List.sorted_insertionSort _ _
  have hde : (sortAsc (recs.map fun r => r.duration_ms)).isEmpty = false := by
    simp [List.isEmpty_iff, hdne]
  simp only [CostTracker.agent_observability, ← hrecs, hre, Bool.false_eq_true,
    if_false, hde]
  exact ⟨percentile_le_percentile hdne hsorted (by norm_num),
    percentile_le_listMax hdne 95⟩

theorem observability_percentile_monotone_witness :
    (sampleLedger.filter fun r => r.caller == "jd_agent") ≠ []
    ∧ (CostTracker.agent_observability sampleLedger "jd_agent").p50_latency_ms
        ≤ (CostTracker.agent_observability sampleLedger "jd_agent").p95_latency_ms
    ∧ (CostTracker.agent_observability sampleLedger "jd_agent").p95_latency_ms
        ≤ (CostTracker.agent_observability sampleLedger "jd_agent").max_latency_ms :=
  ⟨by decide,
    (observability_percentile_monotone sampleLedger "jd_agent" (by decide)).1,
    (observability_percentile_monotone sampleLedger "jd_agent" (by decide)).2⟩

lemma aggregate_foldl (l : List CallRecord) : ∀ s : CostSummary,
    l.foldl aggStep s =
      addSummary s
        { total_calls := l.length
          successful_calls := l.countP fun r => r.success
          failed_calls := l.countP fun r => !r.success
          total_prompt_tokens := (l.map fun r => r.prompt_tokens).sum
          total_completion_tokens := (l.map fun r => r.completion_tokens).sum
          total_tokens := (l.map fun r => r.total_tokens).sum
          total_cost_usd := (l.map fun r => r.estimated_cost_usd).sum
          total_duration_ms := (l.map fun r => r.duration_ms).sum } := by
  induction l with
  | nil =>
      intro s
      cases s
      simp [addSummary]
  | cons r t ih =>
      intro s
      rw [List.foldl_cons, ih (aggStep s r)]
      cases hsuc : r.success
      all_goals
        simp [addSummary, aggStep, hsuc, List.countP_cons, CostSummary.mk.injEq]
      all_goals repeat' apply And.intro
      all_goals first | omega | ring

lemma aggregate_eq (l : List CallRecord) :
    CostTracker._aggregate l =
      { total_calls := l.length
        successful_calls := l.countP fun r => r.success
        failed_calls := l.countP fun r => !r.success
        total_prompt_tokens := (l.map fun r => r.prompt_tokens).sum
        total_completion_tokens := (l.map fun r => r.completion_tokens).sum
        total_tokens := (l.map fun r => r.total_tokens).sum
        total_cost_usd := (l.map fun r => r.estimated_cost_usd).sum
        total_duration_ms := (l.map fun r => r.duration_ms).sum } := by
  rw [CostTracker._aggregate, aggregate_foldl]
  simp only [addSummary, CostSummary.mk.injEq]
  refine ⟨?_, ?_, ?_, ?_, ?_, ?_, ?_, ?_⟩ <;> exact zero_add _

lemma length_eq_sum_ones (l : List CallRecord) :
    l.length = (l.map fun _ => (1 : ℕ)).sum := by
  induction l with
  | nil => rfl
  | cons r t ih =>
      rw [List.map_cons, List.sum_cons, List.length_cons, ih]
      omega

lemma countP_eq_sum_ite (p : CallRecord → Bool) (l : List CallRecord) :
    l.countP p = (l.map fun r => if p r then (1 : ℕ) else 0).sum := by
  induction l with
  | nil => rfl
  | cons r t ih =>
      rw [List.countP_cons, List.map_cons, List.sum_cons, ih]
      cases hp : p r <;> simp [hp] <;> omega

lemma map_sum_update {M : Type} [AddCommMonoid M] :
    ∀ cs : List String, cs.Nodup → ∀ c0 : String, c0 ∈ cs →
    ∀ (f g : String → M) (x : M), g c0 = x + f c0 →
    (∀ c ∈ cs, c ≠ c0 → g c = f c) →
    (cs.map g).sum = x + (cs.map f).sum := by
  intro cs
  induction cs with
  | nil => intro _ c0 h; cases h
  | cons a t ih =>
      intro hnd c0 hc0 f g x hg hothers
      rcases List.mem_cons.mp hc0 with rfl | hc0t
      · have hnotin : c0 ∉ t := (List.nodup_cons.mp hnd).1
        have hmap : t.map g = t.map f :=
          List.map_congr_left fun c hc =>
            hothers c (List.mem_cons_of_mem _ hc) fun he => hnotin (he ▸ hc)
        rw [List.map_cons, List.sum_cons, hg, hmap, List.map_cons,
          List.sum_cons, add_assoc]
      · have hane : a ≠ c0 := fun he => (List.nodup_cons.mp hnd).1 (he ▸ hc0t)
        have hga : g a = f a := hothers a (List.mem_cons_self a t) hane
        rw [List.map_cons, List.sum_cons, List.map_cons, List.sum_cons, hga,
          ih (List.nodup_cons.mp hnd).2 c0 hc0t f g x hg
            fun c hc hne => hothers c (List.mem_cons_of_mem a hc) hne,
          add_left_comm]

lemma sum_filter_key {M : Type} [AddCommMonoid M] (g : CallRecord → M) :
    ∀ l : List CallRecord,
    (((l.map fun r => r.caller).dedup).map
        fun c => ((l.filter fun r => r.caller == c).map g).sum).sum
      = (l.map g).sum := by
  intro l
  induction l with
  | nil => simp
  | cons r t ih =>
      by_cases hmem : r.caller ∈ t.map fun x => x.caller
      · rw [List.map_cons, List.dedup_cons_of_mem hmem]
        have hupd := map_sum_update ((t.map fun x => x.caller).dedup)
          (List.nodup_dedup _) r.caller (List.mem_dedup.mpr hmem)
          (fun c => ((t.filter fun x => x.caller == c).map g).sum)
          (fun c => (((r :: t).filter fun x => x.caller == c).map g).sum)
          (g r)
          (by dsimp only; rw [List.filter_cons]; simp)
          (by
            intro c hc hne
            dsimp only
            rw [List.filter_cons]
            have hb : (r.caller == c) = false := beq_eq_false_iff_ne.mpr (Ne.symm hne)
            simp [hb])
        rw [hupd, ih, List.map_cons, List.sum_cons]
      · rw [List.map_cons, List.dedup_cons_of_not_mem hmem, List.map_cons,
          List.sum_cons]
        have hfilt_nil : (t.filter fun x => x.caller == r.caller) = [] := by
          rw [List.filter_eq_nil_iff]
          intro a ha
          simp only [beq_iff_eq]
          intro he
          exact hmem (he ▸ List.mem_map_of_mem (fun x => x.caller) ha)
        have hterm : (((r :: t).filter fun x => x.caller == r.caller).map g).sum
            = g r := by
          rw [List.filter_cons]
          simp [hfilt_nil]
        have hrest : ((t.map fun x => x.caller).dedup).map
              (fun c => (((r :: t).filter fun x => x.caller == c).map g).sum)
            = ((t.map fun x => x.caller).dedup).map
              (fun c => ((t.filter fun x => x.caller == c).map g).sum) := by
          apply List.map_congr_left
          intro c hc
          have hne : r.caller ≠ c :=
            fun he => hmem (he ▸ (List.mem_dedup.mp hc))
          rw [List.filter_cons]
          have hb : (r.caller == c) = false := beq_eq_false_iff_ne.mpr hne
          simp [hb]
        rw [hterm, hrest, ih, List.map_cons, List.sum_cons]

lemma sumSummaries_fields (l : List CostSummary) :
    sumSummaries l =
      { total_calls := (l.map fun s => s.total_calls).sum
        successful_calls := (l.map fun s => s.successful_calls).sum
        failed_calls := (l.map fun s => s.failed_calls).sum
        total_prompt_tokens := (l.map fun s => s.total_prompt_tokens).sum
        total_completion_tokens := (l.map fun s => s.total_completion_tokens).sum
        total_tokens := (l.map fun s => s.total_tokens).sum
        total_cost_usd := (l.map fun s => s.total_cost_usd).sum
        total_duration_ms := (l.map fun s => s.total_duration_ms).sum } := by
  induction l with
  | nil => rfl
  | cons a t ih =>
      have h1 : sumSummaries (a :: t) = addSummary a (sumSummaries t) := rfl
      rw [h1, ih]
      simp only [addSummary, List.map_cons, List.sum_cons]

/-- C9: `session_summary` decomposes by caller — the field-wise sum of
`caller_summary c` over the distinct caller values present in the ledger
equals `session_summary` (exact arithmetic). -/
theorem session_summary_decomposes_by_caller (s : List CallRecord) :
    sumSummaries (((s.map fun r => r.caller).dedup).map
        fun c => CostTracker.caller_summary s c)
      = CostTracker.session_summary s := by
  rw [sumSummaries_fields]
  unfold CostTracker.caller_summary CostTracker.session_summary
  simp only [aggregate_eq, List.map_map, Function.comp]
  simp only [CostSummary.mk.injEq]
  refine ⟨?_, ?_, ?_, ?_, ?_, ?_, ?_, ?_⟩
  · simp only [length_eq_sum_ones]
    exact sum_filter_key (fun _ => (1 : ℕ)) s
  · simp only [countP_eq_sum_ite]
    exact sum_filter_key (fun r => if r.success = true then (1 : ℕ) else 0) s
  · simp only [countP_eq_sum_ite]
    exact sum_filter_key (fun r => if (!r.success) = true then (1 : ℕ) else 0) s
  · exact sum_filter_key (fun r => r.prompt_tokens) s
  · exact sum_filter_key (fun r => r.completion_tokens) s
  · exact sum_filter_key (fun r => r.total_tokens) s
  · exact sum_filter_key (fun r => r.estimated_cost_usd) s
  · exact sum_filter_key (fun r => r.duration_ms) s

lemma applyRecord_eq (s : List CallRecord) (a : RecordArgs) :
    applyRecord s a = s ++ [mkRecord a] := rfl

lemma runSched_eq {N : ℕ} (r : Fin N → ℕ → RecordArgs) :
    ∀ (σ : List (Fin N)) (c : Fin N → ℕ) (s : List CallRecord),
    runSched r σ c s = s ++ buildList r σ c := by
  intro σ
  induction σ with
  | nil => intro c s; simp [runSched, buildList]
  | cons t σ ih =>
      intro c s
      rw [show runSched r (t :: σ) c s
          = runSched r σ (Function.update c t (c t + 1))
              (applyRecord s (r t (c t))) from rfl,
        ih, applyRecord_eq,
        show buildList r (t :: σ) c
          = mkRecord (r t (c t)) :: buildList r σ (Function.update c t (c t + 1))
          from rfl]
      simp [List.append_assoc]

lemma flatten_map_cons_perm {α β : Type} (t : α) (f g : α → List β) (x : β)
    (hft : f t = x :: g t) :
    ∀ L : List α, L.Nodup → t ∈ L → (∀ u ∈ L, u ≠ t → f u = g u) →
    List.Perm (L.map f).flatten (x :: (L.map g).flatten) := by
  intro L
  induction L with
  | nil => intro _ ht; cases ht
  | cons a L ih =>
      intro hnd ht hothers
      rcases List.mem_cons.mp ht with rfl | htL
      · have hnotin : t ∉ L := (List.nodup_cons.mp hnd).1
        have hmap : L.map f = L.map g :=
          List.map_congr_left fun u hu =>
            hothers u (List.mem_cons_of_mem _ hu) fun he => hnotin (he ▸ hu)
        rw [List.map_cons, List.flatten_cons, hft, List.map_cons,
          List.flatten_cons, hmap]
        exact List.Perm.refl _
      · have hat : a ≠ t := fun he => (List.nodup_cons.mp hnd).1 (he ▸ htL)
        have hga : f a = g a := hothers a (List.mem_cons_self a L) hat
        rw [List.map_cons, List.flatten_cons, List.map_cons,
          List.flatten_cons, hga]
        have hih := ih (List.nodup_cons.mp hnd).2 htL
          fun u hu hne => hothers u (List.mem_cons_of_mem a hu) hne
        exact (List.Perm.append_left (g a) hih).trans List.perm_middle

lemma buildList_perm {N : ℕ} (r : Fin N → ℕ → RecordArgs) :
    ∀ (σ : List (Fin N)) (c : Fin N → ℕ),
    List.Perm (buildList r σ c)
      ((List.finRange N).map (threadSlice r c fun t => σ.count t)).flatten := by
  intro σ
  induction σ with
  | nil =>
      intro c
      have hz : (List.finRange N).map (threadSlice r c fun t => List.count t []) 
          = (List.finRange N).map fun _ => ([] : List CallRecord) := by
        apply List.map_congr_left
        intro u _
        simp [threadSlice, List.count_nil]
      rw [show buildList r [] c = [] from rfl, hz]
      have : ((List.finRange N).map fun _ => ([] : List CallRecord)).flatten
          = [] := by
        simp
      rw [this]
  | cons t σ ih =>
      intro c
      have hft : threadSlice r c (fun u => (t :: σ).count u) t
          = mkRecord (r t (c t))
            :: threadSlice r (Function.update c t (c t + 1))
                (fun u => σ.count u) t := by
        unfold threadSlice
        dsimp only
        rw [List.count_cons_self, List.range'_succ, List.map_cons,
          Function.update_same]
      have hothers : ∀ u ∈ List.finRange N, u ≠ t →
          threadSlice r c (fun v => (t :: σ).count v) u
            = threadSlice r (Function.update c t (c t + 1))
                (fun v => σ.count v) u := by
        intro u _ hne
        unfold threadSlice
        dsimp only
        rw [List.count_cons_of_ne hne, Function.update_noteq hne]
      have hperm := flatten_map_cons_perm t
        (threadSlice r c fun u => (t :: σ).count u)
        (threadSlice r (Function.update c t (c t + 1)) fun u => σ.count u)
        (mkRecord (r t (c t))) hft (List.finRange N) (List.nodup_finRange N)
        (List.mem_finRange t) hothers
      rw [show buildList r (t :: σ) c
          = mkRecord (r t (c t))
            :: buildList r σ (Function.update c t (c t + 1)) from rfl]
      exact ((ih (Function.update c t (c t + 1))).cons
        (mkRecord (r t (c t)))).trans hperm.symm

/-- C10: under the lock-serialization model, any schedule in which each of
the N threads performs exactly M `record` calls yields a ledger whose
`session_summary` reports `total_calls = N * M`, and the ledger is a
permutation of all N*M submitted records — none lost, none duplicated. -/
theorem concurrent_records_all_counted {N : ℕ} (M : ℕ)
    (r : Fin N → ℕ → RecordArgs) (σ : List (Fin N))
    (hσ : ∀ t, σ.count t = M) :
    (CostTracker.session_summary (runSched r σ (fun _ => 0) [])).total_calls
        = N * M
    ∧ List.Perm (runSched r σ (fun _ => 0) [])
        ((List.finRange N).map fun t =>
          (List.range M).map fun i => mkRecord (r t i)).flatten := by
  have hb := buildList_perm r σ fun _ => 0
  have hsl : threadSlice r (fun _ => 0) (fun t => σ.count t)
      = fun t => (List.range M).map fun i => mkRecord (r t i) := by
    funext t
    unfold threadSlice
    dsimp only
    rw [hσ t, ← List.range_eq_range']
  rw [hsl] at hb
  rw [runSched_eq, List.nil_append]
  refine ⟨?_, hb⟩
  have hlen := hb.length_eq
  rw [List.length_flatten, List.map_map] at hlen
  have hlen2 : List.map
      (List.length ∘ fun t => List.map (fun i => mkRecord (r t i)) (List.range M))
      (List.finRange N) = List.map (fun _ => M) (List.finRange N) := by
    apply List.map_congr_left
    intro u _
    simp
  have hconst : List.map (fun _ => M) (List.finRange N) = List.replicate N M := by
    have := List.map_const (List.finRange N) M
    simpa using this
  rw [hlen2, hconst, List.sum_replicate, smul_eq_mul] at hlen
  rw [CostTracker.session_summary, aggregate_eq]
  exact hlen

theorem concurrent_records_all_counted_witness :
    ([0, 1, 1, 0] : List (Fin 2)).count 0 = 2
    ∧ ([0, 1, 1, 0] : List (Fin 2)).count 1 = 2
    ∧ (CostTracker.session_summary
        (runSched sampleArgs [0, 1, 1, 0] (fun _ => 0) [])).total_calls = 2 * 2 :=
  ⟨by decide, by decide,
    (concurrent_records_all_counted 2 sampleArgs [0, 1, 1, 0]
      (by intro t; fin_cases t <;> decide)).1⟩

/-- C2, code-bug evidence: `record` appends the very object it returns
(`CallRecord` is a plain mutable `@dataclass`, not frozen, despite its own
docstring saying "immutable after creation"). The returned address is stored
in the tracker's list, and assigning `prompt_tokens = 999` through the
returned reference changes the ledger's stored record from 500 to 999 —
the returned value is not an independent, frozen copy. -/
theorem record_returns_alias :
    ((ledgerRecords mutationScenario.1 mutationScenario.2.1).map
        fun r => r.prompt_tokens) = [500]
    ∧ mutationScenario.2.2 ∈ mutationScenario.2.1
    ∧ ((ledgerRecords mutatedHeap mutationScenario.2.1).map
        fun r => r.prompt_tokens) = [999] :=
  ⟨rfl, List.mem_singleton_self 0, rfl⟩
